import Mathlib

/-!
Verification of the SQL-dump parsing core of `src/index.mjs`
(encoding detector/decoder, INSERT-statement locator, row tokenizer and
category aggregator), as a shallow embedding over lists of UTF-16 code
units (the representation of JavaScript strings) and lists of bytes.
-/

set_option autoImplicit false

/-- A JavaScript string, modelled as its sequence of UTF-16 code units. -/
abbrev Str := List Nat

/-- Code units of a Lean string literal (used only for ASCII literals in
statements and tests; each character becomes its code point). -/
def cu (s : String) : Str := s.data.map Char.toNat

/-- The set matched by the regex class which also equals the set stripped by
JavaScript `String.prototype.trim` (ECMA-262 WhiteSpace plus LineTerminator). -/
def isJsWhitespace (c : Nat) : Bool :=
  decide (c = 32) || decide (9 ≤ c ∧ c ≤ 13) || decide (c = 160) || decide (c = 5760) ||
  decide (8192 ≤ c ∧ c ≤ 8202) || decide (c = 8232) || decide (c = 8233) ||
  decide (c = 8239) || decide (c = 8287) || decide (c = 12288) || decide (c = 65279)

/-- Model of `value.trim()`: strip leading and trailing whitespace. -/
def jsTrim (s : Str) : Str :=
  ((s.dropWhile isJsWhitespace).reverse.dropWhile isJsWhitespace).reverse

/-- ASCII upper-casing of one code unit.  `String.prototype.toUpperCase` agrees
with this on every comparison performed by the source (the only comparison is
against the ASCII string `NULL`, and no code unit outside `a`-`z` upper-cases
to an ASCII letter under the ECMAScript canonicalization rules used there). -/
def asciiUpper (c : Nat) : Nat := if 97 ≤ c ∧ c ≤ 122 then c - 32 else c

/-- Model of `decodeSqlValue` (src/index.mjs:40-44): the empty string stays the
empty string, a string upper-casing to `NULL` becomes the null marker (`none`),
anything else is kept verbatim. -/
def decodeSqlValue (v : Str) : Option Str :=
  if v = [] then some []
  else if v.map asciiUpper = cu "NULL" then none
  else some v

/-- Decode a byte list as UTF-16 little-endian code units, as
`Buffer.prototype.toString("utf16le")` does: consecutive byte pairs become
`lo + 256 * hi`; a trailing unpaired byte is ignored. -/
def utf16Units : List Nat → List Nat
  | lo :: hi :: rest => (lo + 256 * hi) :: utf16Units rest
  | _ => []

/-- Model of the byte-swapping loops in `decodeTextBuffer`
(src/index.mjs:56-60 and 83-87): every consecutive pair of bytes is swapped.
The source writes only the full pairs into a fresh `allocUnsafe` buffer, so for
an odd-length list the final unpaired byte of the destination is unspecified
there; this model keeps the original byte in place.  The choice is
unobservable: the subsequent `utf16Units` decode discards a trailing unpaired
byte whatever its value (see `utf16Units_replace_trailing_byte`). -/
def swapPairs : List Nat → List Nat
  | a :: b :: rest => b :: a :: swapPairs rest
  | l => l

/-- Encode UTF-16 code units as little-endian bytes (lo byte then hi byte).
This is the inverse direction used by the round-trip property. -/
def encodeUtf16le : List Nat → List Nat
  | [] => []
  | u :: rest => u % 256 :: u / 256 :: encodeUtf16le rest

/-- Turn a Unicode code point into UTF-16 code units (identity below 2^16,
surrogate pair above). -/
def cpToUnits (cp : Nat) : List Nat :=
  if cp < 65536 then [cp]
  else [55296 + (cp - 65536) / 1024, 56320 + (cp - 65536) % 1024]

/-- Continuation-byte test for UTF-8. -/
def contB (x : Nat) : Bool := decide (128 ≤ x) && decide (x < 192)

/-- Allowed second byte after a three-byte lead (WHATWG ranges: `E0` narrows
the low end, `ED` excludes surrogates). -/
def lead3OK (b b2 : Nat) : Bool :=
  if b = 224 then decide (160 ≤ b2 ∧ b2 < 192)
  else if b = 237 then decide (128 ≤ b2 ∧ b2 < 160)
  else contB b2

/-- Allowed second byte after a four-byte lead (WHATWG ranges: `F0` narrows
the low end, `F4` caps at U+10FFFF). -/
def lead4OK (b b2 : Nat) : Bool :=
  if b = 240 then decide (144 ≤ b2 ∧ b2 < 192)
  else if b = 244 then decide (128 ≤ b2 ∧ b2 < 144)
  else contB b2

/-- The scalar value of a two-byte UTF-8 sequence. -/
def cp2Of (b b2 : Nat) : Nat := (b - 192) * 64 + (b2 - 128)

/-- The scalar value of a three-byte UTF-8 sequence. -/
def cp3Of (b b2 b3 : Nat) : Nat := (b - 224) * 4096 + (b2 - 128) * 64 + (b3 - 128)

/-- The scalar value of a four-byte UTF-8 sequence. -/
def cp4Of (b b2 b3 b4 : Nat) : Nat :=
  (b - 240) * 262144 + (b2 - 128) * 4096 + (b3 - 128) * 64 + (b4 - 128)

/-- Model of `Buffer.prototype.toString("utf8")`: a standard (WHATWG) UTF-8
decoder emitting U+FFFD for invalid sequences, producing UTF-16 code units.
The list is destructured four levels deep so the recursion stays structural. -/
def utf8Decode : List Nat → List Nat
  | [] => []
  | [b] => if b < 128 then [b] else [65533]
  | [b, b2] =>
    if b < 128 then b :: utf8Decode [b2]
    else if b < 194 then 65533 :: utf8Decode [b2]
    else if b < 224 then
      if contB b2 then [cp2Of b b2] else 65533 :: utf8Decode [b2]
    else if b < 240 then
      if lead3OK b b2 then [65533] else 65533 :: utf8Decode [b2]
    else if b < 245 then
      if lead4OK b b2 then [65533] else 65533 :: utf8Decode [b2]
    else 65533 :: utf8Decode [b2]
  | [b, b2, b3] =>
    if b < 128 then b :: utf8Decode [b2, b3]
    else if b < 194 then 65533 :: utf8Decode [b2, b3]
    else if b < 224 then
      if contB b2 then cp2Of b b2 :: utf8Decode [b3] else 65533 :: utf8Decode [b2, b3]
    else if b < 240 then
      if lead3OK b b2 then
        if contB b3 then [cp3Of b b2 b3] else 65533 :: utf8Decode [b3]
      else 65533 :: utf8Decode [b2, b3]
    else if b < 245 then
      if lead4OK b b2 then
        if contB b3 then [65533] else 65533 :: utf8Decode [b3]
      else 65533 :: utf8Decode [b2, b3]
    else 65533 :: utf8Decode [b2, b3]
  | b :: b2 :: b3 :: b4 :: rest =>
    if b < 128 then b :: utf8Decode (b2 :: b3 :: b4 :: rest)
    else if b < 194 then 65533 :: utf8Decode (b2 :: b3 :: b4 :: rest)
    else if b < 224 then
      if contB b2 then cp2Of b b2 :: utf8Decode (b3 :: b4 :: rest)
      else 65533 :: utf8Decode (b2 :: b3 :: b4 :: rest)
    else if b < 240 then
      if lead3OK b b2 then
        if contB b3 then cp3Of b b2 b3 :: utf8Decode (b4 :: rest)
        else 65533 :: utf8Decode (b3 :: b4 :: rest)
      else 65533 :: utf8Decode (b2 :: b3 :: b4 :: rest)
    else if b < 245 then
      if lead4OK b b2 then
        if contB b3 then
          if contB b4 then cpToUnits (cp4Of b b2 b3 b4) ++ utf8Decode rest
          else 65533 :: utf8Decode (b4 :: rest)
        else 65533 :: utf8Decode (b3 :: b4 :: rest)
      else 65533 :: utf8Decode (b2 :: b3 :: b4 :: rest)
    else 65533 :: utf8Decode (b2 :: b3 :: b4 :: rest)

/-- First `min(length, 1024)` bytes of the buffer (src/index.mjs:65). -/
def sampleOf (buf : List Nat) : List Nat := buf.take 1024

/-- Count of zero bytes at even offsets of the sample (src/index.mjs:66-73). -/
def nulEvenOf (buf : List Nat) : Nat :=
  ((sampleOf buf).enum.filter (fun p => decide (p.2 = 0) && decide (p.1 % 2 = 0))).length

/-- Count of zero bytes at odd offsets of the sample (src/index.mjs:66-73). -/
def nulOddOf (buf : List Nat) : Nat :=
  ((sampleOf buf).enum.filter (fun p => decide (p.2 = 0) && decide (p.1 % 2 = 1))).length

/-- Number of even offsets in the sample: `Math.ceil(sampleLen / 2)`. -/
def evenSlotsOf (buf : List Nat) : Nat := ((sampleOf buf).length + 1) / 2

/-- Number of odd offsets in the sample: `Math.floor(sampleLen / 2)`. -/
def oddSlotsOf (buf : List Nat) : Nat := (sampleOf buf).length / 2

/-- The test `evenRatio > 0.3` (src/index.mjs:76,79), where
`evenRatio = evenSlots ? nulEven / evenSlots : 0`.  The source computes IEEE
doubles; with both counts bounded by 1024 the quotient differs from the exact
rational by at most a few ulps while any nonzero difference from `0.3` is at
least `1/10240`, so the float comparison agrees with the exact
cross-multiplied integer comparison used here. -/
def evenRatioGt03 (buf : List Nat) : Bool :=
  if evenSlotsOf buf = 0 then false
  else decide (3 * evenSlotsOf buf < 10 * nulEvenOf buf)

/-- The test `oddRatio > 0.3` (src/index.mjs:77,79), modelled exactly like
`evenRatioGt03`. -/
def oddRatioGt03 (buf : List Nat) : Bool :=
  if oddSlotsOf buf = 0 then false
  else decide (3 * oddSlotsOf buf < 10 * nulOddOf buf)

/-- The test `oddRatio >= evenRatio` (src/index.mjs:80), with the source's
zero-denominator fallbacks to `0`, as an exact cross-multiplied comparison
(floats and exact rationals order these small quotients identically). -/
def oddRatioGeEven (buf : List Nat) : Bool :=
  if oddSlotsOf buf = 0 then
    if evenSlotsOf buf = 0 then true else decide (nulEvenOf buf = 0)
  else if evenSlotsOf buf = 0 then true
  else decide (nulEvenOf buf * oddSlotsOf buf ≤ nulOddOf buf * evenSlotsOf buf)

/-- The statistical fallback of `decodeTextBuffer` (src/index.mjs:65-91). -/
def heuristicDecode (buf : List Nat) : List Nat :=
  if oddRatioGt03 buf || evenRatioGt03 buf then
    if oddRatioGeEven buf then utf16Units buf
    else utf16Units (swapPairs buf)
  else utf8Decode buf

/-- Model of `decodeTextBuffer` (src/index.mjs:46-92) on a byte list:
BOM dispatch, then the zero-byte statistical fallback. -/
def decodeTextBuffer (buf : List Nat) : List Nat :=
  if 2 ≤ buf.length ∧ buf.getD 0 0 = 255 ∧ buf.getD 1 0 = 254 then
    utf16Units (buf.drop 2)
  else if 2 ≤ buf.length ∧ buf.getD 0 0 = 254 ∧ buf.getD 1 0 = 255 then
    utf16Units (swapPairs (buf.drop 2))
  else heuristicDecode buf

/-- A row object, as built by the tokenizer callback
(src/index.mjs:147-150): column names assigned in order to the decoded values;
a value of `none` is the JavaScript `null`. -/
abbrev Record := List (Str × Option Str)

/-- Model of the row-object construction `row[columns[idx]] = values[idx] ?? null`
for `idx` below `columns.length` (src/index.mjs:147-150): columns are paired
positionally with values, missing positions getting `null`. -/
def mkRecord : List Str → List (Option Str) → Record
  | [], _ => []
  | c :: cs, [] => (c, none) :: mkRecord cs []
  | c :: cs, v :: vs => (c, v) :: mkRecord cs vs

/-- JavaScript property read on a row object: the value of the last assignment
to that key, `none` if the key was never assigned. -/
def jsGet (row : Record) (key : Str) : Option (Option Str) :=
  ((row.filter fun p => decide (p.1 = key)).getLast?).map Prod.snd

/-- Read a property collapsing the JavaScript nullish cases: `none` stands for
both an absent property and a property holding `null`.  Every use of a row
property in the source goes through `??`, which treats the two identically. -/
def propOrNull (row : Record) (key : Str) : Option Str :=
  (jsGet row key).join

/-- Model of the `??` operator on the values produced by `propOrNull`. -/
def jsCoalesce (a b : Option Str) : Option Str :=
  match a with
  | some v => some v
  | none => b

/-- The character-scanning state machine of `parseValuesSection`
(src/index.mjs:94-164).  `len` is the length of the whole text, `rem` the
suffix of the text starting at index `i`; the scan returns the end offset and
the emitted rows in order. -/
def pvsGo (len : Nat) (columns : List Str) :
    List Nat → Nat → Bool → Bool → Str → List (Option Str) → List Record →
    Nat × List Record
  | [], _, _, _, _, _, rows => (len, rows)
  | 39 :: 39 :: rest, i, true, inRow, current, values, rows =>
    pvsGo len columns rest (i + 2) true inRow (current ++ [39]) values rows
  | c :: rest, i, inString, inRow, current, values, rows =>
    if inString then
      if c = 39 then pvsGo len columns rest (i + 1) false inRow current values rows
      else pvsGo len columns rest (i + 1) true inRow (current ++ [c]) values rows
    else if c = 39 then
      pvsGo len columns rest (i + 1) true inRow current values rows
    else if c = 40 then
      pvsGo len columns rest (i + 1) false true [] [] rows
    else if c = 44 ∧ inRow = true then
      pvsGo len columns rest (i + 1) false true []
        (values ++ [decodeSqlValue (jsTrim current)]) rows
    else if c = 41 ∧ inRow = true then
      pvsGo len columns rest (i + 1) false false []
        (values ++ [decodeSqlValue (jsTrim current)])
        (rows ++ [mkRecord columns (values ++ [decodeSqlValue (jsTrim current)])])
    else if c = 59 ∧ inRow = false then (i + 1, rows)
    else pvsGo len columns rest (i + 1) false inRow (current ++ [c]) values rows

/-- Model of `parseValuesSection` (src/index.mjs:94-164): scan the text from
`startIndex`, returning the end offset and the rows emitted via `onRow`. -/
def parseValuesSection (text : List Nat) (startIndex : Nat) (columns : List Str) :
    Nat × List Record :=
  pvsGo text.length columns (text.drop startIndex) startIndex false false [] [] []

/-- Position reached after skipping the `\s*` run starting at `p`. -/
def wsRunFrom (text : List Nat) (p : Nat) : Nat :=
  p + ((text.drop p).takeWhile isJsWhitespace).length

/-- Match `\s+` at `p`: at least one whitespace character, then the full run. -/
def ws1 (text : List Nat) (p : Nat) : Option Nat :=
  match text[p]? with
  | some c => if isJsWhitespace c then some (wsRunFrom text (p + 1)) else none
  | none => none

/-- Match an ASCII pattern case-insensitively at `p`, as the `i` flag does for
ASCII pattern characters, returning the position after the pattern. -/
def matchCI (text : List Nat) : Nat → List Nat → Option Nat
  | p, [] => some p
  | p, pc :: pcs =>
    match text[p]? with
    | some c => if asciiUpper c = pc then matchCI text (p + 1) pcs else none
    | none => none

/-- Skip the optional backtick of the pattern fragment `` `? ``. -/
def optTick (text : List Nat) (p : Nat) : Nat :=
  if text[p]? = some 96 then p + 1 else p

/-- Skip the greedy table-name run matching the class excluding backtick,
opening parenthesis and whitespace. -/
def nameRunFrom (text : List Nat) (p : Nat) : Nat :=
  p + ((text.drop p).takeWhile
    (fun c => !(decide (c = 96) || decide (c = 40) || isJsWhitespace c))).length

/-- Deterministic matcher for the statement-locator regex
(src/index.mjs:168-169) at position `p`:
`INSERT\s+INTO\s+` then `` `?[^`(\s]*`?\s*\( `` then the captured `[^)]+`,
`\)`, `\s*`, `VALUES`, `\s*`.  None of the quantifiers can profit from
backtracking (each repeated class excludes every character the following
pattern element could need), so the greedy left-to-right scan reproduces the
JavaScript engine exactly.  Returns the end position of the whole match (the
regex `lastIndex`) together with the captured column text. -/
def matchInsertAt (text : List Nat) (p : Nat) : Option (Nat × Str) :=
  match matchCI text p (cu "INSERT") with
  | none => none
  | some p1 =>
    match ws1 text p1 with
    | none => none
    | some p2 =>
      match matchCI text p2 (cu "INTO") with
      | none => none
      | some p3 =>
        match ws1 text p3 with
        | none => none
        | some p4 =>
          let p5 := wsRunFrom text (optTick text (nameRunFrom text (optTick text p4)))
          match text[p5]? with
          | some c =>
            if c = 40 then
              let capStart := p5 + 1
              let capLen := ((text.drop capStart).takeWhile (fun ch => !decide (ch = 41))).length
              if capLen = 0 then none
              else
                match text[capStart + capLen]? with
                | some c2 =>
                  if c2 = 41 then
                    match matchCI text (wsRunFrom text (capStart + capLen + 1)) (cu "VALUES") with
                    | none => none
                    | some p10 => some (wsRunFrom text p10, (text.drop capStart).take capLen)
                  else none
                | none => none
            else none
          | none => none

/-- Scan positions `p, p+1, ...` for the first regex match; `k` bounds the
number of positions still to try (the caller passes `length + 1 - p`, so the
scan covers every position up to and including the end of the text, exactly as
`exec` with a `lastIndex` does). -/
def findGo (text : List Nat) : Nat → Nat → Option (Nat × Str)
  | 0, _ => none
  | k + 1, p =>
    match matchInsertAt text p with
    | some r => some r
    | none => findGo text k (p + 1)

/-- Model of `insertRegex.exec(sqlText)` with `lastIndex = li`: the first match
at or after `li` (none when `li` is past the end of the text). -/
def findInsertFrom (text : List Nat) (li : Nat) : Option (Nat × Str) :=
  findGo text (text.length + 1 - li) li

/-- Model of `parseSqlColumns` (src/index.mjs:33-38): split the captured text
on commas, trim each part, strip backticks, drop empty names. -/
def parseSqlColumns (capture : Str) : List Str :=
  ((capture.splitOn 44).map
      (fun col => (jsTrim col).filter fun ch => !decide (ch = 96))).filter
    (fun s => !s.isEmpty)

/-- One categorized record `{question, short, full}` (src/index.mjs:190-194). -/
structure CatItem where
  question : Str
  short : Str
  full : Str
deriving DecidableEq, Repr

/-- The category map: an insertion-ordered association list, as a JavaScript
`Map` is. -/
abbrev CategoryMap := List (Str × List CatItem)

/-- Append an item to the bucket of `key`, creating the bucket at the end on
first use (`categoryMap.has/set/get(...).push` of src/index.mjs:189-194). -/
def pushItem : CategoryMap → Str → CatItem → CategoryMap
  | [], key, it => [(key, [it])]
  | (k, its) :: rest, key, it =>
    if k = key then (k, its ++ [it]) :: rest
    else (k, its) :: pushItem rest key it

/-- The key used for the `category_id` property. -/
def keyCategoryId : Str := cu "category_id"

/-- The key used for the `cat_id` property. -/
def keyCatId : Str := cu "cat_id"

/-- The key used for the `question` property. -/
def keyQuestion : Str := cu "question"

/-- The key used for the `answer` property. -/
def keyAnswer : Str := cu "answer"

/-- The key used for the `description` property. -/
def keyDescription : Str := cu "description"

/-- The raw category value `row.category_id ?? row.cat_id`
(src/index.mjs:180). -/
def categoryRawOf (row : Record) : Option Str :=
  jsCoalesce (propOrNull row keyCategoryId) (propOrNull row keyCatId)

/-- The bucket key `String(categoryRaw).split(".")[0].trim()`
(src/index.mjs:182): the trimmed prefix before the first dot. -/
def categoryRootOf (raw : Str) : Str :=
  jsTrim (raw.takeWhile fun c => !decide (c = 46))

/-- The `{question, short, full}` record built for a row
(src/index.mjs:185-194). -/
def recordItem (row : Record) : CatItem where
  question := (propOrNull row keyQuestion).getD []
  short := (jsCoalesce (propOrNull row keyAnswer) (propOrNull row keyDescription)).getD []
  full := (jsCoalesce (propOrNull row keyDescription) (propOrNull row keyAnswer)).getD []

/-- Model of the aggregation callback body (src/index.mjs:180-194): drop the
row when the coalesced category value is nullish or empty, or when its trimmed
first dot-segment is empty; otherwise append the categorized item to the
bucket of that root key. -/
def insertRow (m : CategoryMap) (row : Record) : CategoryMap :=
  match categoryRawOf row with
  | none => m
  | some raw =>
    if raw = [] then m
    else
      if categoryRootOf raw = [] then m
      else pushItem m (categoryRootOf raw) (recordItem row)

/-- The statement-scanning loop of `splitSqlByCategory`
(src/index.mjs:174-197), with the rows collected instead of aggregated inline
(the callback only folds rows one at a time, so aggregating the collected list
afterwards is the same computation).  `fuel` bounds the number of loop
iterations; the caller passes `text.length + 1`, which is always sufficient
because each iteration strictly advances `lastIndex`
(see `collectGo_fuel_stable`). -/
def collectGo (text : List Nat) : Nat → Nat → Nat → List Record → Nat × List Record
  | 0, _, n, rs => (n, rs)
  | fuel + 1, li, n, rs =>
    match findInsertFrom text li with
    | none => (n, rs)
    | some (mEnd, capture) =>
      let columns := parseSqlColumns capture
      let pr := parseValuesSection text mEnd columns
      collectGo text fuel pr.1 (n + 1) (rs ++ pr.2)

/-- Number of `INSERT` statements found and the rows emitted by the tokenizer,
in emission order, over the whole text. -/
def collectRows (text : List Nat) : Nat × List Record :=
  collectGo text (text.length + 1) 0 0 []

/-- The statistics record logged and returned by `splitSqlByCategory`
(src/index.mjs:203-210). -/
structure SqlStats where
  inserts : Nat
  rows : Nat
  categories : Nat
deriving DecidableEq, Repr

/-- The result of `splitSqlByCategory`: the category map and the stats. -/
structure SplitResult where
  categoryMap : CategoryMap
  stats : SqlStats
deriving DecidableEq, Repr

/-- Model of `splitSqlByCategory` (src/index.mjs:166-211). -/
def splitSqlByCategory (text : List Nat) : SplitResult :=
  let nr := collectRows text
  let m := nr.2.foldl insertRow []
  ⟨m, ⟨nr.1, nr.2.length, m.length⟩⟩

/-- The zero-category failure check of the handler (src/index.mjs:341-343):
the parse step throws exactly when the produced category map is empty. -/
def coreSignalsFailure (text : List Nat) : Bool :=
  (splitSqlByCategory text).categoryMap.isEmpty

/-- The code unit of the single-quote character. -/
def apos : Nat := 39

/-- The end-to-end scenario input
`INSERT INTO qa (cat_id, question, description) VALUES ('3', 'What?', 'Because.');`. -/
def c1Input : Str :=
  cu "INSERT INTO qa (cat_id, question, description) VALUES (" ++ [apos] ++ cu "3" ++
  [apos] ++ cu ", " ++ [apos] ++ cu "What?" ++ [apos] ++ cu ", " ++ [apos] ++
  cu "Because." ++ [apos] ++ cu ");"

/-- The values region `(1, 'Q1''s text', 'A1'), (2, NULL, 'A2');` of the
tokenizer scenario. -/
def c2Input : Str :=
  cu "(1, " ++ [apos] ++ cu "Q1" ++ [apos, apos] ++ cu "s text" ++ [apos] ++ cu ", " ++
  [apos] ++ cu "A1" ++ [apos] ++ cu "), (2, NULL, " ++ [apos] ++ cu "A2" ++ [apos] ++
  cu ");"

/-- The column list of the tokenizer scenario. -/
def c2Cols : List Str := [cu "category_id", cu "question", cu "answer"]

/-- A string starting with U+FEFF whose UTF-16LE bytes begin with a BOM-like
`FF FE` prefix. -/
def c6BadUnits : Str := 65279 :: cu "aaaa"

/-- A row whose `category_id` is the dotted value `7.3`. -/
def c4DottedRow : Record := [(keyCategoryId, some (cu "7.3"))]

/-- Keys of the category map in order. -/
def keysOf (m : CategoryMap) : List Str := m.map Prod.fst

/-- The bucket stored for a key (first matching entry; keys are unique in
maps built by the aggregator). -/
def bucketOf : CategoryMap → Str → List CatItem
  | [], _ => []
  | (k, its) :: rest, key => if k = key then its else bucketOf rest key

/-- Total number of items across all buckets. -/
def countItems (m : CategoryMap) : Nat := (m.map fun p => p.2.length).sum

/-- The category key and item a row contributes, if the row is kept: this is
the declarative reading of the body of `insertRow`. -/
def recordPair (row : Record) : Option (Str × CatItem) :=
  match categoryRawOf row with
  | none => none
  | some raw =>
    if raw = [] then none
    else if categoryRootOf raw = [] then none
    else some (categoryRootOf raw, recordItem row)

/-- The kept (key, item) pairs of a row list, in emission order. -/
def keptPairs (rows : List Record) : List (Str × CatItem) :=
  rows.filterMap recordPair

/-- Keep the first occurrence of each element not in `seen`, in order. -/
def dedupFirstGo (seen : List Str) : List Str → List Str
  | [] => []
  | x :: xs =>
    if x ∈ seen then dedupFirstGo seen xs
    else x :: dedupFirstGo (x :: seen) xs

/-- First-seen deduplication preserving the order of first occurrences. -/
def dedupFirst (l : List Str) : List Str := dedupFirstGo [] l

/-! ## Decoder lemmas -/

theorem utf16Units_encodeUtf16le :
    ∀ units : List Nat, (∀ u ∈ units, u < 65536) →
      utf16Units (encodeUtf16le units) = units
  | [], _ => rfl
  | u :: rest, h => by
    have hu : u < 65536 := h u (List.mem_cons_self u rest)
    have hrest := utf16Units_encodeUtf16le rest (fun v hv => h v (List.mem_cons_of_mem u hv))
    simp only [encodeUtf16le, utf16Units, hrest]
    congr 1
    omega

theorem swapPairs_length : ∀ l : List Nat, (swapPairs l).length = l.length
  | [] => rfl
  | [_] => rfl
  | _ :: _ :: rest => by simp [swapPairs, swapPairs_length rest]

theorem swapPairs_getLast?_of_odd :
    ∀ l : List Nat, l.length % 2 = 1 → (swapPairs l).getLast? = l.getLast?
  | [], h => by simp at h
  | [_], _ => rfl
  | a :: b :: rest, h => by
    have hr : rest.length % 2 = 1 := by
      simp only [List.length_cons] at h
      omega
    have hrne : rest ≠ [] := by
      intro he
      rw [he] at hr
      simp at hr
    have hsne : swapPairs rest ≠ [] := by
      intro he
      have := swapPairs_length rest
      rw [he] at this
      exact hrne (List.eq_nil_of_length_eq_zero this.symm)
    have ih := swapPairs_getLast?_of_odd rest hr
    obtain ⟨r1, rest', hrv⟩ := List.exists_cons_of_ne_nil hrne
    obtain ⟨s1, sp', hsv⟩ := List.exists_cons_of_ne_nil hsne
    simp only [swapPairs]
    rw [hsv, hrv] at ih ⊢
    rw [List.getLast?_cons_cons, List.getLast?_cons_cons, ih,
      List.getLast?_cons_cons, List.getLast?_cons_cons]

theorem utf16Units_replace_trailing_byte :
    ∀ (l : List Nat) (x : Nat), l.length % 2 = 1 →
      utf16Units (l.dropLast ++ [x]) = utf16Units l
  | [], _, h => by simp at h
  | [_], _, _ => rfl
  | a :: b :: rest, x, h => by
    have hr : rest.length % 2 = 1 := by
      simp only [List.length_cons] at h
      omega
    have hrne : rest ≠ [] := by
      intro he
      rw [he] at hr
      simp at hr
    have ih := utf16Units_replace_trailing_byte rest x hr
    obtain ⟨r1, rest', hrv⟩ := List.exists_cons_of_ne_nil hrne
    subst hrv
    have hdl : (a :: b :: r1 :: rest').dropLast = a :: b :: (r1 :: rest').dropLast := rfl
    rw [hdl, List.cons_append, List.cons_append]
    simp only [utf16Units]
    rw [ih]

theorem drop_cons_info {text rest : List Nat} {c : Nat} {i : Nat}
    (h : text.drop i = c :: rest) :
    text[i]? = some c ∧ text.drop (i + 1) = rest ∧ i < text.length := by
  have h1 : text[i]? = some c := by
    have := List.getElem?_drop text i 0
    rw [h] at this
    simpa using this.symm
  refine ⟨h1, ?_, ?_⟩
  · have h2 : text.drop (i + 1) = (text.drop i).drop 1 := by
      rw [List.drop_drop]
    rw [h2, h]
    rfl
  · by_contra hge
    push_neg at hge
    rw [List.getElem?_eq_none hge] at h1
    cases h1

theorem pvsGo_result (text : List Nat) (cols : List Str) :
    ∀ (rem : List Nat) (i : Nat) (inS inR : Bool) (cur : Str)
      (vals : List (Option Str)) (rows : List Record),
      text.drop i = rem →
      (pvsGo text.length cols rem i inS inR cur vals rows).1 = text.length ∨
      ∃ j, i ≤ j ∧ j < text.length ∧
        (pvsGo text.length cols rem i inS inR cur vals rows).1 = j + 1 ∧
        text[j]? = some 59 := by
  intro rem i inS inR cur vals rows
  induction rem, i, inS, inR, cur, vals, rows using pvsGo.induct text.length cols with
  | case1 => intro _; exact Or.inl rfl
  | case2 rest i inRow cur vals rows ih =>
    intro hrem
    obtain ⟨h1, hd1, hlt⟩ := drop_cons_info hrem
    obtain ⟨h2, hd2, hlt2⟩ := drop_cons_info hd1
    have hmot := ih hd2
    simp only [pvsGo]
    rcases hmot with h | ⟨j, hj1, hj2, hj3, hj4⟩
    · exact Or.inl h
    · exact Or.inr ⟨j, by omega, hj2, hj3, hj4⟩
  | case3 rest i inRow cur vals rows hne ih =>
    intro hrem
    obtain ⟨h1, hd1, hlt⟩ := drop_cons_info hrem
    have hmot := ih hd1
    simp only [pvsGo, if_true]
    rcases hmot with h | ⟨j, hj1, hj2, hj3, hj4⟩
    · exact Or.inl h
    · exact Or.inr ⟨j, by omega, hj2, hj3, hj4⟩
  | case4 c rest i inRow cur vals rows hc hne ih =>
    intro hrem
    obtain ⟨h1, hd1, hlt⟩ := drop_cons_info hrem
    have hmot := ih hd1
    simp only [pvsGo, if_true, if_neg hc]
    rcases hmot with h | ⟨j, hj1, hj2, hj3, hj4⟩
    · exact Or.inl h
    · exact Or.inr ⟨j, by omega, hj2, hj3, hj4⟩
  | case5 rest i inS inRow cur vals rows hs hne ih =>
    intro hrem
    obtain ⟨h1, hd1, hlt⟩ := drop_cons_info hrem
    have hmot := ih hd1
    simp only [pvsGo, if_neg hs, if_true]
    rcases hmot with h | ⟨j, hj1, hj2, hj3, hj4⟩
    · exact Or.inl h
    · exact Or.inr ⟨j, by omega, hj2, hj3, hj4⟩
  | case6 rest i inS inRow cur vals rows hs hne hc ih =>
    intro hrem
    obtain ⟨h1, hd1, hlt⟩ := drop_cons_info hrem
    have hmot := ih hd1
    simp only [pvsGo, if_neg hs, if_neg hc, if_true]
    rcases hmot with h | ⟨j, hj1, hj2, hj3, hj4⟩
    · exact Or.inl h
    · exact Or.inr ⟨j, by omega, hj2, hj3, hj4⟩
  | case7 c rest i inS inRow cur vals rows hne hs hc1 hc2 hcond ih =>
    intro hrem
    obtain ⟨h1, hd1, hlt⟩ := drop_cons_info hrem
    have hmot := ih hd1
    simp only [pvsGo, if_neg hs, if_neg hc1, if_neg hc2, if_pos hcond]
    rcases hmot with h | ⟨j, hj1, hj2, hj3, hj4⟩
    · exact Or.inl h
    · exact Or.inr ⟨j, by omega, hj2, hj3, hj4⟩
  | case8 c rest i inS inRow cur vals rows hne hs hc1 hc2 hc3 hcond ih =>
    intro hrem
    obtain ⟨h1, hd1, hlt⟩ := drop_cons_info hrem
    have hmot := ih hd1
    simp only [pvsGo, if_neg hs, if_neg hc1, if_neg hc2, if_neg hc3, if_pos hcond]
    rcases hmot with h | ⟨j, hj1, hj2, hj3, hj4⟩
    · exact Or.inl h
    · exact Or.inr ⟨j, by omega, hj2, hj3, hj4⟩
  | case9 c rest i inS inRow cur vals rows hne hs hc1 hc2 hc3 hc4 hcond =>
    intro hrem
    obtain ⟨h1, hd1, hlt⟩ := drop_cons_info hrem
    simp only [pvsGo, if_neg hs, if_neg hc1, if_neg hc2, if_neg hc3, if_neg hc4,
      if_pos hcond]
    exact Or.inr ⟨i, le_refl i, hlt, rfl, by rw [h1, hcond.1]⟩
  | case10 c rest i inS inRow cur vals rows hne hs hc1 hc2 hc3 hc4 hc5 ih =>
    intro hrem
    obtain ⟨h1, hd1, hlt⟩ := drop_cons_info hrem
    have hmot := ih hd1
    simp only [pvsGo, if_neg hs, if_neg hc1, if_neg hc2, if_neg hc3, if_neg hc4,
      if_neg hc5]
    rcases hmot with h | ⟨j, hj1, hj2, hj3, hj4⟩
    · exact Or.inl h
    · exact Or.inr ⟨j, by omega, hj2, hj3, hj4⟩

/-- The scan of `parseValuesSection` either runs off the end of the text
(returning `text.length`) or stops just past a semicolon met outside a row. -/
theorem parseValuesSection_result (text : List Nat) (s : Nat) (cols : List Str) :
    (parseValuesSection text s cols).1 = text.length ∨
    ∃ j, s ≤ j ∧ j < text.length ∧
      (parseValuesSection text s cols).1 = j + 1 ∧ text[j]? = some 59 :=
  pvsGo_result text cols (text.drop s) s false false [] [] [] rfl

theorem parseValuesSection_le (text : List Nat) (s : Nat) (cols : List Str) :
    (parseValuesSection text s cols).1 ≤ text.length := by
  rcases parseValuesSection_result text s cols with h | ⟨j, _, hj, h2, _⟩
  · exact le_of_eq h
  · omega

theorem parseValuesSection_lb (text : List Nat) (s : Nat) (cols : List Str)
    (li : Nat) (h1 : li < s) (h2 : s ≤ text.length) :
    li < (parseValuesSection text s cols).1 := by
  rcases parseValuesSection_result text s cols with h | ⟨j, hj0, hj, hr, _⟩
  · omega
  · omega

/-! ## Locator bounds -/

theorem matchCI_bound (text : List Nat) :
    ∀ (pat : List Nat) (p q : Nat), matchCI text p pat = some q →
      p ≤ q ∧ (pat ≠ [] → p < q ∧ q ≤ text.length)
  | [], p, q, h => by
    simp only [matchCI, Option.some.injEq] at h
    subst h
    exact ⟨le_refl p, fun hne => absurd rfl hne⟩
  | pc :: pcs, p, q, h => by
    simp only [matchCI] at h
    cases hg : text[p]? with
    | none => simp only [hg] at h; cases h
    | some c =>
      simp only [hg] at h
      by_cases hu : asciiUpper c = pc
      · rw [if_pos hu] at h
        have hplt : p < text.length := by
          by_contra hge
          push_neg at hge
          rw [List.getElem?_eq_none hge] at hg
          cases hg
        have := matchCI_bound text pcs (p + 1) q h
        rcases this with ⟨h1, h2⟩
        constructor
        · omega
        · intro _
          rcases List.eq_nil_or_concat pcs with hnil | _
          · subst hnil
            simp only [matchCI, Option.some.injEq] at h
            omega
          · have h3 := h2 (by rintro rfl; simp_all)
            omega
      · rw [if_neg hu] at h
        cases h

theorem wsRunFrom_bound (text : List Nat) (p : Nat) :
    p ≤ wsRunFrom text p ∧ (p ≤ text.length → wsRunFrom text p ≤ text.length) := by
  unfold wsRunFrom
  constructor
  · omega
  · intro hp
    have h1 : ((text.drop p).takeWhile isJsWhitespace).length ≤ (text.drop p).length :=
      (List.takeWhile_sublist _).length_le
    have h2 : (text.drop p).length = text.length - p := List.length_drop p text
    omega

theorem ws1_bound (text : List Nat) (p q : Nat) (h : ws1 text p = some q) :
    p < q ∧ q ≤ text.length := by
  unfold ws1 at h
  cases hg : text[p]? with
  | none => simp only [hg] at h; cases h
  | some c =>
    simp only [hg] at h
    by_cases hw : isJsWhitespace c
    · rw [if_pos hw] at h
      have hplt : p < text.length := by
        by_contra hge
        push_neg at hge
        rw [List.getElem?_eq_none hge] at hg
        cases hg
      have := wsRunFrom_bound text (p + 1)
      simp only [Option.some.injEq] at h
      subst h
      exact ⟨by omega, this.2 (by omega)⟩
    · rw [if_neg hw] at h
      cases h

theorem optTick_bound (text : List Nat) (p : Nat) :
    p ≤ optTick text p ∧ (p ≤ text.length → optTick text p ≤ text.length) := by
  unfold optTick
  by_cases hg : text[p]? = some 96
  · rw [if_pos hg]
    have hplt : p < text.length := by
      by_contra hge
      push_neg at hge
      rw [List.getElem?_eq_none hge] at hg
      cases hg
    exact ⟨by omega, fun _ => by omega⟩
  · rw [if_neg hg]
    exact ⟨le_refl p, fun hp => hp⟩

theorem nameRunFrom_bound (text : List Nat) (p : Nat) :
    p ≤ nameRunFrom text p ∧ (p ≤ text.length → nameRunFrom text p ≤ text.length) := by
  unfold nameRunFrom
  constructor
  · omega
  · intro hp
    have h1 : ((text.drop p).takeWhile
        (fun c => !(decide (c = 96) || decide (c = 40) || isJsWhitespace c))).length ≤
        (text.drop p).length :=
      (List.takeWhile_sublist _).length_le
    have h2 : (text.drop p).length = text.length - p := List.length_drop p text
    omega

theorem getElem?_some_lt {text : List Nat} {p c : Nat} (h : text[p]? = some c) :
    p < text.length := by
  by_contra hge
  push_neg at hge
  rw [List.getElem?_eq_none hge] at h
  cases h

theorem matchInsertAt_bound (text : List Nat) (p e : Nat) (cap : Str)
    (h : matchInsertAt text p = some (e, cap)) : p < e ∧ e ≤ text.length := by
  unfold matchInsertAt at h
  cases h1 : matchCI text p (cu "INSERT") with
  | none => rw [h1] at h; cases h
  | some p1 =>
  simp only [h1] at h
  cases h2 : ws1 text p1 with
  | none => rw [h2] at h; cases h
  | some p2 =>
  simp only [h2] at h
  cases h3 : matchCI text p2 (cu "INTO") with
  | none => rw [h3] at h; cases h
  | some p3 =>
  simp only [h3] at h
  cases h4 : ws1 text p3 with
  | none => rw [h4] at h; cases h
  | some p4 =>
  simp only [h4] at h
  have hB1 := matchCI_bound text (cu "INSERT") p p1 h1
  have hB2 := ws1_bound text p1 p2 h2
  have hB3 := matchCI_bound text (cu "INTO") p2 p3 h3
  have hB4 := ws1_bound text p3 p4 h4
  have hp1 := hB1.2 (by decide)
  have hp3 := hB3.2 (by decide)
  set p5 := wsRunFrom text (optTick text (nameRunFrom text (optTick text p4))) with hp5def
  have hp45 : p4 ≤ p5 ∧ (p4 ≤ text.length → p5 ≤ text.length) := by
    have hA := optTick_bound text p4
    have hB := nameRunFrom_bound text (optTick text p4)
    have hC := optTick_bound text (nameRunFrom text (optTick text p4))
    have hD := wsRunFrom_bound text (optTick text (nameRunFrom text (optTick text p4)))
    exact ⟨by omega, fun hle => hD.2 (hC.2 (hB.2 (hA.2 hle)))⟩
  cases h5 : text[p5]? with
  | none => rw [h5] at h; cases h
  | some c =>
  simp only [h5] at h
  by_cases hc : c = 40
  case neg => rw [if_neg hc] at h; cases h
  rw [if_pos hc] at h
  set capLen := ((text.drop (p5 + 1)).takeWhile fun ch => !decide (ch = 41)).length with hcapdef
  by_cases hcl : capLen = 0
  case pos => rw [if_pos hcl] at h; cases h
  rw [if_neg hcl] at h
  cases h6 : text[p5 + 1 + capLen]? with
  | none => rw [h6] at h; cases h
  | some c2 =>
  simp only [h6] at h
  by_cases hc2 : c2 = 41
  case neg => rw [if_neg hc2] at h; cases h
  rw [if_pos hc2] at h
  cases h7 : matchCI text (wsRunFrom text (p5 + 1 + capLen + 1)) (cu "VALUES") with
  | none => rw [h7] at h; cases h
  | some p10 =>
  simp only [h7, Option.some.injEq, Prod.mk.injEq] at h
  obtain ⟨he, hcap⟩ := h
  have hB7 := matchCI_bound text (cu "VALUES") _ p10 h7
  have hp10 := hB7.2 (by decide)
  have hlt5 : p5 < text.length := getElem?_some_lt h5
  have hlt6 : p5 + 1 + capLen < text.length := getElem?_some_lt h6
  have hw9 := wsRunFrom_bound text (p5 + 1 + capLen + 1)
  have hw10 := wsRunFrom_bound text p10
  have he2 := hw10.2 (by omega)
  subst he
  omega

theorem findGo_bound (text : List Nat) :
    ∀ (k p e : Nat) (cap : Str), findGo text k p = some (e, cap) →
      p < e ∧ e ≤ text.length
  | 0, _, _, _, h => by cases h
  | k + 1, p, e, cap, h => by
    simp only [findGo] at h
    cases hm : matchInsertAt text p with
    | some r =>
      rw [hm] at h
      cases h
      exact matchInsertAt_bound text p e cap hm
    | none =>
      rw [hm] at h
      have := findGo_bound text k (p + 1) e cap h
      omega

theorem findInsertFrom_bound (text : List Nat) (li e : Nat) (cap : Str)
    (h : findInsertFrom text li = some (e, cap)) : li < e ∧ e ≤ text.length :=
  findGo_bound text (text.length + 1 - li) li e cap h

theorem findInsertFrom_none_of_gt (text : List Nat) (li : Nat)
    (h : text.length < li) : findInsertFrom text li = none := by
  unfold findInsertFrom
  rw [Nat.sub_eq_zero_of_le (by omega)]
  rfl

/-- One unit of extra fuel is irrelevant once the fuel covers the remaining
positions: this is what makes the `text.length + 1` fuel of `collectRows`
a faithful rendering of the source's unbounded `while` loop, whose
`lastIndex` strictly increases and is bounded by the text length. -/
theorem collectGo_fuel_succ (text : List Nat) :
    ∀ (f li n : Nat) (rs : List Record), text.length + 1 - li ≤ f →
      collectGo text (f + 1) li n rs = collectGo text f li n rs
  | 0, li, n, rs, hf => by
    have hgt : text.length < li := by omega
    simp only [collectGo, findInsertFrom_none_of_gt text li hgt]
  | f + 1, li, n, rs, hf => by
    simp only [collectGo]
    cases hm : findInsertFrom text li with
    | none => rfl
    | some r =>
      obtain ⟨mEnd, capture⟩ := r
      have hb := findInsertFrom_bound text li mEnd capture hm
      have hlb := parseValuesSection_lb text mEnd (parseSqlColumns capture) li hb.1 hb.2
      have hle := parseValuesSection_le text mEnd (parseSqlColumns capture)
      exact collectGo_fuel_succ text f
        (parseValuesSection text mEnd (parseSqlColumns capture)).1 (n + 1)
        (rs ++ (parseValuesSection text mEnd (parseSqlColumns capture)).2) (by omega)

/-- Any fuel at least `text.length + 1 - li` gives the same scan result. -/
theorem collectGo_fuel_stable (text : List Nat) (li n : Nat) (rs : List Record) :
    ∀ f, text.length + 1 - li ≤ f →
      collectGo text f li n rs = collectGo text (text.length + 1 - li) li n rs := by
  have key : ∀ d, collectGo text (text.length + 1 - li + d) li n rs =
      collectGo text (text.length + 1 - li) li n rs := by
    intro d
    induction d with
    | zero => rfl
    | succ d ih =>
      rw [show text.length + 1 - li + (d + 1) = text.length + 1 - li + d + 1 from rfl,
        collectGo_fuel_succ text (text.length + 1 - li + d) li n rs (by omega), ih]
  intro f hf
  have hsplit : f = text.length + 1 - li + (f - (text.length + 1 - li)) := by omega
  rw [hsplit, key]

/-! ## Aggregation lemmas -/

theorem insertRow_eq_recordPair (m : CategoryMap) (row : Record) :
    insertRow m row =
      match recordPair row with
      | none => m
      | some p => pushItem m p.1 p.2 := by
  unfold insertRow recordPair
  cases categoryRawOf row with
  | none => rfl
  | some raw =>
    by_cases h1 : raw = []
    · simp [h1]
    · by_cases h2 : categoryRootOf raw = []
      · simp [h1, h2]
      · simp [h1, h2]

theorem foldl_insertRow_eq (start : CategoryMap) :
    ∀ rows : List Record,
      rows.foldl insertRow start =
        (keptPairs rows).foldl (fun m p => pushItem m p.1 p.2) start := by
  intro rows
  induction rows generalizing start with
  | nil => rfl
  | cons r rows ih =>
    simp only [List.foldl_cons, keptPairs, List.filterMap_cons]
    rw [insertRow_eq_recordPair]
    cases hr : recordPair r with
    | none => exact ih _
    | some p => simp only [List.foldl_cons]; exact ih _

theorem pushItem_keys (m : CategoryMap) (key : Str) (it : CatItem) :
    keysOf (pushItem m key it) =
      if key ∈ keysOf m then keysOf m else keysOf m ++ [key] := by
  simp only [keysOf]
  induction m with
  | nil => simp [pushItem]
  | cons e rest ih =>
    obtain ⟨k, its⟩ := e
    by_cases hk : k = key
    · subst hk
      simp [pushItem]
    · simp only [pushItem, if_neg hk, List.map_cons]
      by_cases hm : key ∈ List.map Prod.fst rest
      · rw [if_pos hm] at ih
        rw [if_pos (by simp [List.mem_cons, hm]), ih]
      · rw [if_neg hm] at ih
        rw [if_neg (by
          simp only [List.mem_cons]
          push_neg
          exact ⟨fun he => hk he.symm, hm⟩), ih]
        simp

theorem pushItem_bucket_self (m : CategoryMap) (key : Str) (it : CatItem) :
    bucketOf (pushItem m key it) key = bucketOf m key ++ [it] := by
  induction m with
  | nil => simp [pushItem, bucketOf]
  | cons e rest ih =>
    obtain ⟨k, its⟩ := e
    by_cases hk : k = key
    · subst hk
      simp [pushItem, bucketOf]
    · simp [pushItem, bucketOf, hk, ih]

theorem pushItem_bucket_other (m : CategoryMap) (key other : Str) (it : CatItem)
    (hne : other ≠ key) :
    bucketOf (pushItem m key it) other = bucketOf m other := by
  induction m with
  | nil => simp [pushItem, bucketOf, Ne.symm hne]
  | cons e rest ih =>
    obtain ⟨k, its⟩ := e
    by_cases hk : k = key
    · subst hk
      simp [pushItem, bucketOf, Ne.symm hne]
    · simp [pushItem, bucketOf, hk, ih]

theorem pushItem_count (m : CategoryMap) (key : Str) (it : CatItem) :
    countItems (pushItem m key it) = countItems m + 1 := by
  induction m with
  | nil => simp [pushItem, countItems]
  | cons e rest ih =>
    obtain ⟨k, its⟩ := e
    by_cases hk : k = key
    · subst hk
      simp [pushItem, countItems]
      omega
    · simp only [pushItem, if_neg hk, countItems, List.map_cons, List.sum_cons]
      rw [show countItems (pushItem rest key it) = ((pushItem rest key it).map fun p => p.2.length).sum from rfl] at ih
      rw [ih]
      rfl

theorem dedupFirstGo_congr :
    ∀ (l s1 s2 : List Str), (∀ x, x ∈ s1 ↔ x ∈ s2) →
      dedupFirstGo s1 l = dedupFirstGo s2 l
  | [], _, _, _ => rfl
  | x :: xs, s1, s2, h => by
    by_cases hx : x ∈ s1
    · simp only [dedupFirstGo, if_pos hx, if_pos ((h x).mp hx)]
      exact dedupFirstGo_congr xs s1 s2 h
    · simp only [dedupFirstGo, if_neg hx, if_neg (fun hc => hx ((h x).mpr hc))]
      refine congrArg _ (dedupFirstGo_congr xs (x :: s1) (x :: s2) ?_)
      intro y
      simp only [List.mem_cons]
      exact or_congr Iff.rfl (h y)

theorem foldPush_keys :
    ∀ (ps : List (Str × CatItem)) (m : CategoryMap),
      keysOf (ps.foldl (fun m p => pushItem m p.1 p.2) m) =
        keysOf m ++ dedupFirstGo (keysOf m) (ps.map Prod.fst)
  | [], m => by simp [dedupFirstGo]
  | (key, it) :: ps, m => by
    simp only [List.foldl_cons, List.map_cons, dedupFirstGo]
    rw [foldPush_keys ps (pushItem m key it), pushItem_keys]
    by_cases hm : key ∈ keysOf m
    · rw [if_pos hm, if_pos hm]
    · rw [if_neg hm, if_neg hm]
      rw [dedupFirstGo_congr (ps.map Prod.fst) (keysOf m ++ [key]) (key :: keysOf m)
        (by intro y; simp [List.mem_append, List.mem_cons, or_comm])]
      simp

theorem foldPush_bucket :
    ∀ (ps : List (Str × CatItem)) (m : CategoryMap) (key : Str),
      bucketOf (ps.foldl (fun m p => pushItem m p.1 p.2) m) key =
        bucketOf m key ++ (ps.filter (fun p => decide (p.1 = key))).map Prod.snd
  | [], m, key => by simp
  | (k, it) :: ps, m, key => by
    simp only [List.foldl_cons]
    rw [foldPush_bucket ps (pushItem m k it) key]
    by_cases hk : k = key
    · subst hk
      rw [pushItem_bucket_self]
      simp [List.filter_cons]
    · rw [pushItem_bucket_other m k key it (fun he => hk he.symm)]
      simp [List.filter_cons, hk]

theorem foldPush_count :
    ∀ (ps : List (Str × CatItem)) (m : CategoryMap),
      countItems (ps.foldl (fun m p => pushItem m p.1 p.2) m) =
        countItems m + ps.length
  | [], m => by simp
  | (k, it) :: ps, m => by
    simp only [List.foldl_cons, List.length_cons]
    rw [foldPush_count ps (pushItem m k it), pushItem_count]
    omega

theorem dedupFirstGo_nodup :
    ∀ (l seen : List Str),
      (dedupFirstGo seen l).Nodup ∧ ∀ x ∈ dedupFirstGo seen l, x ∉ seen
  | [], _ => ⟨List.nodup_nil, by simp [dedupFirstGo]⟩
  | x :: xs, seen => by
    by_cases hx : x ∈ seen
    · simp only [dedupFirstGo, if_pos hx]
      exact dedupFirstGo_nodup xs seen
    · simp only [dedupFirstGo, if_neg hx]
      obtain ⟨hnd, hmem⟩ := dedupFirstGo_nodup xs (x :: seen)
      refine ⟨List.nodup_cons.mpr ⟨?_, hnd⟩, ?_⟩
      · intro hc
        exact hmem x hc (List.mem_cons_self x seen)
      · intro y hy
        rcases List.mem_cons.mp hy with rfl | hy2
        · exact hx
        · intro hc
          exact hmem y hy2 (List.mem_cons_of_mem x hc)

/-! ## Decoder branch lemmas -/

theorem decodeTextBuffer_bom_le (rest : List Nat) :
    decodeTextBuffer (255 :: 254 :: rest) = utf16Units rest := by
  unfold decodeTextBuffer
  rw [if_pos ⟨by simp, rfl, rfl⟩]
  rfl

theorem decodeTextBuffer_bom_be (rest : List Nat) :
    decodeTextBuffer (254 :: 255 :: rest) = utf16Units (swapPairs rest) := by
  unfold decodeTextBuffer
  rw [if_neg (by rintro ⟨-, h, -⟩; simp [List.getD] at h),
    if_pos ⟨by simp, rfl, rfl⟩]
  rfl

theorem decodeTextBuffer_cases (buf : List Nat) :
    decodeTextBuffer buf = utf16Units (buf.drop 2) ∨
    decodeTextBuffer buf = utf16Units (swapPairs (buf.drop 2)) ∨
    decodeTextBuffer buf = utf16Units buf ∨
    decodeTextBuffer buf = utf16Units (swapPairs buf) ∨
    decodeTextBuffer buf = utf8Decode buf := by
  unfold decodeTextBuffer heuristicDecode
  split_ifs <;> tauto

theorem decodeTextBuffer_utf16le_heuristic (buf : List Nat)
    (h1 : oddRatioGt03 buf = true) (h2 : oddRatioGeEven buf = true)
    (hb1 : ¬(buf.getD 0 0 = 255 ∧ buf.getD 1 0 = 254))
    (hb2 : ¬(buf.getD 0 0 = 254 ∧ buf.getD 1 0 = 255)) :
    decodeTextBuffer buf = utf16Units buf := by
  unfold decodeTextBuffer heuristicDecode
  rw [if_neg (by rintro ⟨-, h, h'⟩; exact hb1 ⟨h, h'⟩),
    if_neg (by rintro ⟨-, h, h'⟩; exact hb2 ⟨h, h'⟩),
    if_pos (by simp [h1]), if_pos h2]

/-! ## Row-object lemmas -/

theorem propOrNull_cons_ne (k : Str) (v : Option Str) (row : Record) (key : Str)
    (h : k ≠ key) : propOrNull ((k, v) :: row) key = propOrNull row key := by
  simp [propOrNull, jsGet, List.filter_cons, h]

theorem propOrNull_mkRecord_not_mem :
    ∀ (cols : List Str) (vals : List (Option Str)) (key : Str),
      key ∉ cols → propOrNull (mkRecord cols vals) key = none
  | [], _, _, _ => rfl
  | c :: cs, [], key, h => by
    have hc : c ≠ key := fun he => h (List.mem_cons.mpr (Or.inl he.symm))
    rw [show mkRecord (c :: cs) [] = (c, none) :: mkRecord cs [] from rfl,
      propOrNull_cons_ne _ _ _ _ hc]
    exact propOrNull_mkRecord_not_mem cs [] key (fun hm => h (List.mem_cons_of_mem c hm))
  | c :: cs, v :: vs, key, h => by
    have hc : c ≠ key := fun he => h (List.mem_cons.mpr (Or.inl he.symm))
    rw [show mkRecord (c :: cs) (v :: vs) = (c, v) :: mkRecord cs vs from rfl,
      propOrNull_cons_ne _ _ _ _ hc]
    exact propOrNull_mkRecord_not_mem cs vs key (fun hm => h (List.mem_cons_of_mem c hm))

theorem mkRecord_getElem? :
    ∀ (cols : List Str) (vals : List (Option Str)) (i : Nat), i < cols.length →
      (mkRecord cols vals)[i]? = some (cols.getD i [], vals.getD i none)
  | [], _, i, h => by simp at h
  | c :: cs, [], 0, _ => by
    rw [show mkRecord (c :: cs) [] = (c, none) :: mkRecord cs [] from rfl]
    simp [List.getD]
  | c :: cs, [], i + 1, h => by
    rw [show mkRecord (c :: cs) [] = (c, none) :: mkRecord cs [] from rfl]
    simpa using mkRecord_getElem? cs [] i (by simpa using h)
  | c :: cs, v :: vs, 0, _ => by
    rw [show mkRecord (c :: cs) (v :: vs) = (c, v) :: mkRecord cs vs from rfl]
    simp [List.getD]
  | c :: cs, v :: vs, i + 1, h => by
    rw [show mkRecord (c :: cs) (v :: vs) = (c, v) :: mkRecord cs vs from rfl]
    simpa using mkRecord_getElem? cs vs i (by simpa using h)

/-! ## Claim theorems -/

/-- C1: for the input
`INSERT INTO qa (cat_id, question, description) VALUES ('3', 'What?', 'Because.');`
the full pipeline (locate, tokenize, aggregate) yields exactly one bucket
keyed `3` holding the single item with question `What?` and short and full
text `Because.`, and stats of 1 statement found, 1 row parsed, 1 category
found. -/
theorem claimC1_end_to_end_pipeline :
    splitSqlByCategory c1Input =
      ⟨[(cu "3", [⟨cu "What?", cu "Because.", cu "Because."⟩])], ⟨1, 1, 1⟩⟩ := by
  decide

/-- C2: tokenizing the values region
`(1, 'Q1''s text', 'A1'), (2, NULL, 'A2');` with columns
`[category_id, question, answer]` emits exactly two rows: the first maps
`category_id` to `1`, `question` to `Q1's text` (the doubled quote decoded as
one literal quote) and `answer` to `A1`; the second maps `category_id` to `2`,
`question` to the null marker (the unquoted `NULL`, decoded
case-insensitively) and `answer` to `A2`. -/
theorem claimC2_tokenizer_two_rows :
    parseValuesSection c2Input 0 c2Cols =
      (c2Input.length,
       [[(cu "category_id", some (cu "1")),
         (cu "question", some (cu "Q1" ++ [apos] ++ cu "s text")),
         (cu "answer", some (cu "A1"))],
        [(cu "category_id", some (cu "2")),
         (cu "question", none),
         (cu "answer", some (cu "A2"))]]) := by
  decide

/-- C3: every buffer starting with the bytes `FE FF` is decoded by
byte-swapping each consecutive pair of the remainder and reading the result as
UTF-16 little-endian; for an odd-length remainder the final unpaired byte
stays at its position (the source never writes it) and is ignored by the
UTF-16 decode whatever value the unwritten slot holds, so the decoded text is
the same. -/
theorem claimC3_utf16be_bom_swap (rest : List Nat) :
    decodeTextBuffer (254 :: 255 :: rest) = utf16Units (swapPairs rest) ∧
    (rest.length % 2 = 1 →
      (swapPairs rest).getLast? = rest.getLast? ∧
      ∀ junk, utf16Units ((swapPairs rest).dropLast ++ [junk]) =
        utf16Units (swapPairs rest)) := by
  refine ⟨decodeTextBuffer_bom_be rest, fun hodd => ⟨swapPairs_getLast?_of_odd rest hodd, ?_⟩⟩
  intro junk
  exact utf16Units_replace_trailing_byte (swapPairs rest) junk
    (by rw [swapPairs_length]; exact hodd)

/-- Witness for C3 at the concrete buffer `FE FF 00 41 63`. -/
theorem claimC3_witness :
    decodeTextBuffer [254, 255, 0, 65, 99] = utf16Units (swapPairs [0, 65, 99]) ∧
    (swapPairs [0, 65, 99]).getLast? = [0, 65, 99].getLast? :=
  ⟨(claimC3_utf16be_bom_swap [0, 65, 99]).1,
   ((claimC3_utf16be_bom_swap [0, 65, 99]).2 (by decide)).1⟩

/-- C4: the aggregator reads `category_id`, falling back to `cat_id` when that
is absent or null; it discards the record when the resolved value is absent or
empty (in particular when both fields are absent or empty), and otherwise uses
the trimmed substring before the first dot as the bucket key, discarding the
record when that key is empty after trimming.  A `category_id` of `7.3` lands
in bucket `7`; a row with empty or absent `category_id` and no usable `cat_id`
contributes to no bucket. -/
theorem claimC4_category_resolution :
    (∀ (m : CategoryMap) (row : Record),
        categoryRawOf row = none ∨ categoryRawOf row = some [] →
        insertRow m row = m) ∧
    (∀ (m : CategoryMap) (row : Record) (raw : Str),
        categoryRawOf row = some raw → categoryRootOf raw = [] →
        insertRow m row = m) ∧
    (∀ (m : CategoryMap) (row : Record) (raw : Str),
        categoryRawOf row = some raw → raw ≠ [] → categoryRootOf raw ≠ [] →
        insertRow m row = pushItem m (categoryRootOf raw) (recordItem row)) ∧
    categoryRootOf (cu "7.3") = cu "7" ∧
    insertRow [] c4DottedRow = [(cu "7", [recordItem c4DottedRow])] ∧
    (∀ (m : CategoryMap) (row : Record),
        propOrNull row keyCategoryId = none → propOrNull row keyCatId = none →
        insertRow m row = m) := by
  refine ⟨?_, ?_, ?_, by decide, by decide, ?_⟩
  · intro m row h
    rcases h with h | h <;> simp [insertRow, h]
  · intro m row raw h1 h2
    by_cases hr : raw = []
    · simp [insertRow, h1, hr]
    · simp [insertRow, h1, hr, h2]
  · intro m row raw h1 h2 h3
    simp [insertRow, h1, h2, h3]
  · intro m row h1 h2
    simp [insertRow, categoryRawOf, jsCoalesce, h1, h2]

/-- Witness for C4: a row with only an empty `category_id` is dropped, and the
dotted row `7.3` is bucketed under `7`. -/
theorem claimC4_witness :
    insertRow [] [(keyCategoryId, some [])] = [] ∧
    insertRow [] c4DottedRow = [(cu "7", [recordItem c4DottedRow])] :=
  ⟨claimC4_category_resolution.1 [] [(keyCategoryId, some [])] (Or.inr (by decide)),
   claimC4_category_resolution.2.2.2.2.1⟩

/-- C5: the parse step of the handler signals failure exactly when the whole
scan produced zero categories; an input with no INSERT statement at all
triggers the failure, and an input yielding at least one bucket does not. -/
theorem claimC5_zero_category_failure (text : List Nat) :
    (coreSignalsFailure text = true ↔
      (splitSqlByCategory text).stats.categories = 0) ∧
    (findInsertFrom text 0 = none → coreSignalsFailure text = true) ∧
    ((splitSqlByCategory text).categoryMap ≠ [] → coreSignalsFailure text = false) := by
  refine ⟨?_, ?_, ?_⟩
  · show (splitSqlByCategory text).categoryMap.isEmpty = true ↔ _
    rw [List.isEmpty_iff,
      show (splitSqlByCategory text).stats.categories =
        (splitSqlByCategory text).categoryMap.length from rfl]
    exact ⟨fun h => by rw [h]; rfl, fun h => List.length_eq_zero.mp h⟩
  · intro h
    show (splitSqlByCategory text).categoryMap.isEmpty = true
    simp only [splitSqlByCategory, collectRows, collectGo, h]
    rfl
  · intro h
    cases hm : (splitSqlByCategory text).categoryMap with
    | nil => exact absurd hm h
    | cons a l =>
      show (splitSqlByCategory text).categoryMap.isEmpty = false
      rw [hm]
      rfl

/-- Witness for C5: a plain-text input fails; the C1 input does not. -/
theorem claimC5_witness :
    coreSignalsFailure (cu "plain text with no statements") = true ∧
    coreSignalsFailure c1Input = false :=
  ⟨(claimC5_zero_category_failure _).2.1 (by decide),
   (claimC5_zero_category_failure c1Input).2.2 (by decide)⟩

/-- C6 as stated is false: a string starting with U+FEFF satisfies the
ASCII-heavy ratio conditions, yet its UTF-16LE bytes begin `FF FE`, so the
decoder strips them as a BOM and the first character is lost. -/
theorem claimC6_counterexample :
    oddRatioGt03 (encodeUtf16le c6BadUnits) = true ∧
    oddRatioGeEven (encodeUtf16le c6BadUnits) = true ∧
    (∀ u ∈ c6BadUnits, u < 65536) ∧
    decodeTextBuffer (encodeUtf16le c6BadUnits) ≠ c6BadUnits :=
  ⟨by decide, by decide, by decide, by decide⟩

/-- C6 (amended): encoding code units to UTF-16LE bytes without a BOM and
decoding reproduces the original exactly, provided the zero-byte ratio of the
encoded buffer is ASCII-heavy (odd ratio above 0.3 and at least the even
ratio) and additionally the first two bytes are not `FF FE` or `FE FF`. -/
theorem claimC6_roundtrip_no_bom (units : List Nat)
    (hu : ∀ u ∈ units, u < 65536)
    (h1 : oddRatioGt03 (encodeUtf16le units) = true)
    (h2 : oddRatioGeEven (encodeUtf16le units) = true)
    (hb1 : ¬((encodeUtf16le units).getD 0 0 = 255 ∧ (encodeUtf16le units).getD 1 0 = 254))
    (hb2 : ¬((encodeUtf16le units).getD 0 0 = 254 ∧ (encodeUtf16le units).getD 1 0 = 255)) :
    decodeTextBuffer (encodeUtf16le units) = units := by
  rw [decodeTextBuffer_utf16le_heuristic _ h1 h2 hb1 hb2]
  exact utf16Units_encodeUtf16le units hu

/-- Witness for C6 at the ASCII string `hello`. -/
theorem claimC6_witness :
    decodeTextBuffer (encodeUtf16le (cu "hello")) = cu "hello" :=
  claimC6_roundtrip_no_bom (cu "hello") (by decide) (by decide) (by decide)
    (by decide) (by decide)

/-- C7: category keys appear in first-seen order of the kept rows, and every
bucket holds its items in row-emission order: the incrementally built map
equals the declarative grouping of the kept (key, item) pairs. -/
theorem claimC7_insertion_order (text : List Nat) :
    keysOf (splitSqlByCategory text).categoryMap =
      dedupFirst ((keptPairs (collectRows text).2).map Prod.fst) ∧
    ∀ key, bucketOf (splitSqlByCategory text).categoryMap key =
      ((keptPairs (collectRows text).2).filter
        (fun p => decide (p.1 = key))).map Prod.snd := by
  have hmap : (splitSqlByCategory text).categoryMap =
      (keptPairs (collectRows text).2).foldl (fun m p => pushItem m p.1 p.2) [] := by
    show (collectRows text).2.foldl insertRow [] = _
    exact foldl_insertRow_eq [] (collectRows text).2
  constructor
  · rw [hmap, foldPush_keys]
    rfl
  · intro key
    rw [hmap, foldPush_bucket]
    rfl

/-- C8: the decoder is total (its value is always one of the five decode
branches, falling back to UTF-8), and the tokenizer always returns an end
offset bounded by the text length; when it does not stop just past a
semicolon met outside a row, it returns exactly `text.length`. -/
theorem claimC8_detector_tokenizer_total :
    (∀ buf : List Nat,
        decodeTextBuffer buf = utf16Units (buf.drop 2) ∨
        decodeTextBuffer buf = utf16Units (swapPairs (buf.drop 2)) ∨
        decodeTextBuffer buf = utf16Units buf ∨
        decodeTextBuffer buf = utf16Units (swapPairs buf) ∨
        decodeTextBuffer buf = utf8Decode buf) ∧
    (∀ (text : List Nat) (s : Nat) (cols : List Str),
        (parseValuesSection text s cols).1 ≤ text.length ∧
        ((parseValuesSection text s cols).1 = text.length ∨
          ∃ j, s ≤ j ∧ j < text.length ∧
            (parseValuesSection text s cols).1 = j + 1 ∧ text[j]? = some 59)) :=
  ⟨decodeTextBuffer_cases,
   fun text s cols =>
     ⟨parseValuesSection_le text s cols, parseValuesSection_result text s cols⟩⟩

/-- C9: a row whose `question` property is absent (column missing), beyond the
value count, or the null marker yields a categorized item with empty-string
question; positions beyond the value count are filled with the null marker. -/
theorem claimC9_question_defaults_empty :
    (∀ row : Record, propOrNull row keyQuestion = none →
        (recordItem row).question = []) ∧
    (∀ (cols : List Str) (vals : List (Option Str)),
        keyQuestion ∉ cols → propOrNull (mkRecord cols vals) keyQuestion = none) ∧
    (∀ (cols : List Str) (vals : List (Option Str)) (i : Nat),
        i < cols.length →
        (mkRecord cols vals)[i]? = some (cols.getD i [], vals.getD i none)) := by
  refine ⟨?_, ?_, mkRecord_getElem?⟩
  · intro row h
    simp [recordItem, h]
  · intro cols vals h
    exact propOrNull_mkRecord_not_mem cols vals keyQuestion h

/-- Witness for C9 at concrete rows. -/
theorem claimC9_witness :
    (recordItem [(cu "x", some (cu "y"))]).question = [] ∧
    propOrNull (mkRecord [cu "a"] []) keyQuestion = none ∧
    (mkRecord [cu "a", keyQuestion] [some (cu "1")])[1]? = some (keyQuestion, none) := by
  refine ⟨claimC9_question_defaults_empty.1 _ (by decide),
    claimC9_question_defaults_empty.2.1 [cu "a"] [] (by decide), ?_⟩
  rw [claimC9_question_defaults_empty.2.2 [cu "a", keyQuestion] [some (cu "1")] 1
    (by decide)]
  decide

/-- C10: `rows` counts every emitted row including dropped ones, so it bounds
the total number of categorized items; `categories` equals the number of
buckets, whose keys are pairwise distinct. -/
theorem claimC10_stats_invariants (text : List Nat) :
    (splitSqlByCategory text).stats.rows = (collectRows text).2.length ∧
    countItems (splitSqlByCategory text).categoryMap ≤
      (splitSqlByCategory text).stats.rows ∧
    (splitSqlByCategory text).stats.categories =
      (splitSqlByCategory text).categoryMap.length ∧
    (keysOf (splitSqlByCategory text).categoryMap).Nodup := by
  have hmap : (splitSqlByCategory text).categoryMap =
      (keptPairs (collectRows text).2).foldl (fun m p => pushItem m p.1 p.2) [] := by
    show (collectRows text).2.foldl insertRow [] = _
    exact foldl_insertRow_eq [] (collectRows text).2
  refine ⟨rfl, ?_, rfl, ?_⟩
  · rw [show (splitSqlByCategory text).stats.rows = (collectRows text).2.length from rfl,
      hmap, foldPush_count]
    have h1 : (keptPairs (collectRows text).2).length ≤ (collectRows text).2.length :=
      List.length_filterMap_le _ _
    have h2 : countItems ([] : CategoryMap) = 0 := rfl
    omega
  · rw [hmap, foldPush_keys]
    have hnd := dedupFirstGo_nodup ((keptPairs (collectRows text).2).map Prod.fst) []
    simpa [keysOf] using hnd.1
